import Mathlib

/-!
Verification development for the CDC ingestion pipeline
(football-rag-backend): shallow embedding of `app/cdc/buffer.py`,
`app/cdc/event_merger.py`, `app/cdc/offset_store.py`,
`app/cdc/consumer.py`, `app/cdc/processor.py` and
`app/utils/circuit_breaker.py`, with theorems settling the spec claims.

Machine conventions: Python `time.time()` values are modelled as `Int`
(claims do not hinge on fractional seconds); Python dicts whose
insertion order matters are modelled as association lists with
CPython ≥3.7 semantics (assignment to an existing key updates in place,
a fresh key appends).
-/

namespace CDC

/-- CDC events are modelled abstractly for the buffer: the buffer stores
opaque event values. -/
abbrev Event := Nat

/-- Embedding of `CircularBuffer` (src/app/cdc/buffer.py).
`buffer = deque(maxlen=max_size)`; `last_batch_time = time.time()`.
The `threading.Lock` is modelled separately where a claim needs it. -/
structure CircularBuffer where
  max_size : Nat
  buffer : List Event
  last_batch_time : Int
  deriving Repr, DecidableEq

namespace CircularBuffer

/-- `CircularBuffer.__init__`: when a category size is configured it is
taken; otherwise `max_size or settings.CDC_BUFFER_SIZE` (Python `or`:
`None` and `0` both fall back to the default). `categorySize` models
`settings.CDC_BUFFER_SIZES[category]` when the category is configured,
`defaultSize` models `settings.CDC_BUFFER_SIZE`, `now` models
`time.time()` at construction. -/
def init (maxSize : Option Nat) (categorySize : Option Nat)
    (defaultSize : Nat) (now : Int) : CircularBuffer :=
  { max_size :=
      match categorySize with
      | some s => s
      | none =>
        match maxSize with
        | some n => if n = 0 then defaultSize else n
        | none => defaultSize
    buffer := []
    last_batch_time := now }

/-- `CircularBuffer.add`: `self.buffer.append(event)` on a
`deque(maxlen=max_size)` — appends on the right and, when the deque is
full, silently discards the leftmost (oldest) element. -/
def add (b : CircularBuffer) (e : Event) : CircularBuffer :=
  let l := b.buffer ++ [e]
  { b with buffer := if b.max_size < l.length then l.drop (l.length - b.max_size) else l }

/-- `CircularBuffer.get_batch`: snapshot of up to `max_batch_size`
events from the front, without removal. -/
def get_batch (b : CircularBuffer) (maxBatchSize : Option Nat) : List Event :=
  match maxBatchSize with
  | none => b.buffer
  | some n => if b.buffer.length ≤ n then b.buffer else b.buffer.take n

/-- `CircularBuffer.clear_batch`: pops `min(batch_size, len(buffer))`
events from the left. -/
def clear_batch (b : CircularBuffer) (batchSize : Nat) : CircularBuffer :=
  { b with buffer := b.buffer.drop batchSize }

/-- `CircularBuffer.is_ready_for_processing` (timeout already resolved
to a concrete value by the caller, as the Python default resolution
does): returns the readiness flag and the possibly-updated buffer
(an empty buffer has its `last_batch_time` reset to `now`). -/
def is_ready_for_processing (b : CircularBuffer) (timeout : Int) (now : Int) :
    Bool × CircularBuffer :=
  if b.max_size ≤ b.buffer.length then (true, b)
  else if b.buffer.length = 0 then (false, { b with last_batch_time := now })
  else if timeout ≤ now - b.last_batch_time then (true, b)
  else (false, b)

/-- The operations a client can issue against a buffer, for stating
invariants over arbitrary interaction sequences. -/
inductive Op where
  | add (e : Event)
  | clearBatch (n : Nat)
  deriving Repr, DecidableEq

def applyOp (b : CircularBuffer) : Op → CircularBuffer
  | Op.add e => b.add e
  | Op.clearBatch n => b.clear_batch n

def applyOps (b : CircularBuffer) (ops : List Op) : CircularBuffer :=
  ops.foldl applyOp b

end CircularBuffer

end CDC

namespace CDC

theorem CircularBuffer.add_length_le (b : CircularBuffer) (e : Event)
    (h : b.buffer.length ≤ b.max_size) :
    (b.add e).buffer.length ≤ b.max_size := by
  simp only [CircularBuffer.add]
  split
  · simp only [List.length_drop, List.length_append, List.length_cons,
      List.length_nil]
    omega
  · simp only [List.length_append, List.length_cons, List.length_nil] at *
    omega

theorem CircularBuffer.applyOp_length_le (b : CircularBuffer) (op : CircularBuffer.Op)
    (h : b.buffer.length ≤ b.max_size) :
    (b.applyOp op).buffer.length ≤ b.max_size := by
  cases op with
  | add e => exact CircularBuffer.add_length_le b e h
  | clearBatch n =>
    simp only [CircularBuffer.applyOp, CircularBuffer.clear_batch, List.length_drop]
    omega

/-- Applying one op does not change `max_size`. -/
theorem CircularBuffer.applyOp_max_size (b : CircularBuffer) (op : CircularBuffer.Op) :
    (b.applyOp op).max_size = b.max_size := by
  cases op <;> rfl

theorem CircularBuffer.applyOps_length_le (b : CircularBuffer)
    (ops : List CircularBuffer.Op) (h : b.buffer.length ≤ b.max_size) :
    (b.applyOps ops).buffer.length ≤ (b.applyOps ops).max_size := by
  induction ops generalizing b with
  | nil => exact h
  | cons op rest ih =>
    have h1 := CircularBuffer.applyOp_length_le b op h
    rw [← CircularBuffer.applyOp_max_size b op] at h1
    exact ih _ h1

/-- C2 counterexample: a `CircularBuffer` of capacity 1 holding the
unprocessed event `1` receives `add 2`; event `1` disappears although no
`clear_batch` was ever issued — `deque(maxlen=1)` silently discards the
oldest element, refuting "adding to a full buffer never silently
overwrites the oldest unprocessed event". -/
theorem C2_add_overwrites_oldest :
    (((CircularBuffer.init (some 1) none 1000 0).add 1).add 2).buffer = [2] ∧
      1 ∉ (((CircularBuffer.init (some 1) none 1000 0).add 1).add 2).buffer := by
  decide

/-- C2 amended: over every sequence of `add`/`clear_batch` operations a
buffer holds at most its configured capacity; but adding to a full
buffer (deque at `maxlen`) silently drops the oldest event and appends
the new one — events are removed both by explicit `clear_batch` and by
overflow on `add`. -/
theorem C2_capacity_invariant_amended (maxSize categorySize : Option Nat)
    (defaultSize : Nat) (now : Int) (ops : List CircularBuffer.Op) :
    (((CircularBuffer.init maxSize categorySize defaultSize now).applyOps ops).buffer.length ≤
      ((CircularBuffer.init maxSize categorySize defaultSize now).applyOps ops).max_size) ∧
    (∀ (b : CircularBuffer) (e : Event), b.buffer.length = b.max_size → 0 < b.max_size →
      (b.add e).buffer = b.buffer.drop 1 ++ [e]) := by
  constructor
  · exact CircularBuffer.applyOps_length_le _ ops (by simp [CircularBuffer.init])
  · intro b e hfull hpos
    simp only [CircularBuffer.add]
    have hlen : (b.buffer ++ [e]).length = b.max_size + 1 := by
      simp [hfull]
    rw [if_pos (by omega)]
    rw [hlen]
    have h1 : b.max_size + 1 - b.max_size = 1 := by omega
    rw [h1, List.drop_append_of_le_length (by omega)]

theorem C2_capacity_invariant_amended_witness :
    (((CircularBuffer.init (some 2) none 100 0).applyOps
      [CircularBuffer.Op.add 1, CircularBuffer.Op.add 2, CircularBuffer.Op.add 3]).buffer.length ≤
      ((CircularBuffer.init (some 2) none 100 0).applyOps
      [CircularBuffer.Op.add 1, CircularBuffer.Op.add 2, CircularBuffer.Op.add 3]).max_size) ∧
    (({ max_size := 2, buffer := [4, 5], last_batch_time := 0 : CircularBuffer }.add 9).buffer =
      [5, 9]) := by
  refine ⟨(C2_capacity_invariant_amended (some 2) none 100 0 _).1, ?_⟩
  have h := (C2_capacity_invariant_amended (some 2) none 100 0 []).2
    { max_size := 2, buffer := [4, 5], last_batch_time := 0 } 9 (by decide) (by decide)
  exact h.trans (by decide)

/-- C6: `is_ready_for_processing` returns true iff the buffer is at
capacity, or non-empty with at least `timeout` elapsed since
`last_batch_time`; called on an empty buffer it resets
`last_batch_time` to the current time and returns false. -/
theorem C6_is_ready_iff (b : CircularBuffer) (timeout now : Int)
    (hpos : 0 < b.max_size) :
    ((b.is_ready_for_processing timeout now).1 = true ↔
      (b.max_size ≤ b.buffer.length ∨
        (0 < b.buffer.length ∧ timeout ≤ now - b.last_batch_time))) ∧
    (b.buffer = [] →
      b.is_ready_for_processing timeout now =
        (false, { b with last_batch_time := now })) := by
  constructor
  · simp only [CircularBuffer.is_ready_for_processing]
    split_ifs with h1 h2 h3 <;> simp <;> omega
  · intro hemp
    simp only [CircularBuffer.is_ready_for_processing, hemp, List.length_nil]
    rw [if_neg (by omega), if_pos trivial]

theorem C6_is_ready_iff_witness :
    0 < (3 : Nat) ∧
    (({ max_size := 3, buffer := [], last_batch_time := 7 :
        CircularBuffer }).is_ready_for_processing 5 20 =
      (false, { max_size := 3, buffer := [], last_batch_time := 20 })) := by
  refine ⟨by decide, ?_⟩
  exact (C6_is_ready_iff
    { max_size := 3, buffer := [], last_batch_time := 7 } 5 20 (by decide)).2 rfl

end CDC

namespace CDC

/-!
`process_batch_when_ready` (buffer.py lines 118-156) interacts with the
buffer's single non-reentrant `threading.Lock`. We model the method
against a state carrying the lock bit; acquiring an already-held lock
deadlocks (no other thread can release it inside this call), modelled
as `none` in an `Option`-valued semantics. The blocking wait loop
(`while block and not self.is_ready_for_processing(timeout): sleep`)
re-checks readiness at successive times; the list `ts` of those times
models the clock observed at each iteration, and exhausting it without
readiness models an unfinished wait (`none`).
-/

/-- A `CircularBuffer` together with its `threading.Lock` state. -/
structure LockedBuffer where
  buf : CircularBuffer
  locked : Bool
  deriving Repr, DecidableEq

namespace LockedBuffer

/-- `self.lock.acquire()`: deadlocks (`none`) if the lock is already
held by this thread — `threading.Lock` is not reentrant. -/
def acquire (s : LockedBuffer) : Option LockedBuffer :=
  if s.locked then none else some { s with locked := true }

/-- `self.lock.release()` at the exit of a `with self.lock:` block. -/
def release (s : LockedBuffer) : LockedBuffer :=
  { s with locked := false }

/-- `CircularBuffer.clear_batch` including its own `with self.lock:`. -/
def clear_batchL (s : LockedBuffer) (n : Nat) : Option LockedBuffer :=
  (acquire s).map fun s1 => release { s1 with buf := s1.buf.clear_batch n }

/-- `CircularBuffer.is_ready_for_processing` including its
`with self.lock:` (acquired and released around the body). -/
def is_readyL (s : LockedBuffer) (timeout now : Int) :
    Option (Bool × LockedBuffer) :=
  (acquire s).map fun s1 =>
    let (r, b1) := s1.buf.is_ready_for_processing timeout now
    (r, release { s1 with buf := b1 })

/-- Body of `process_batch_when_ready` (lines 138-156): the
`with self.lock:` block. `procRaises` tells whether the processing
callback raises; `now` is `time.time()` at the success-path timer
reset. On success the code calls `self.clear_batch(batch_size)` while
still holding the lock. -/
def processBody (s : LockedBuffer) (procRaises : Bool) (now : Int) :
    Option (Bool × LockedBuffer) :=
  match acquire s with
  | none => none
  | some s1 =>
    if s1.buf.buffer.length = 0 then some (false, release s1)
    else if procRaises then some (false, release s1)
    else
      match clear_batchL s1 s1.buf.buffer.length with
      | none => none
      | some s2 =>
        some (true, release { s2 with buf := { s2.buf with last_batch_time := now } })

/-- The `while block and not self.is_ready_for_processing(timeout)`
loop: checks readiness at each successive time in `ts`; returns the
state at the first ready check, `none` when `ts` is exhausted without
readiness. -/
def waitLoop (s : LockedBuffer) (timeout : Int) : List Int → Option LockedBuffer
  | [] => none
  | t :: ts =>
    Option.bind (is_readyL s timeout t) fun rs =>
      if rs.1 then some rs.2 else waitLoop rs.2 timeout ts

/-- `CircularBuffer.process_batch_when_ready`. `t0` is the time of the
first readiness check, `ts` the times of subsequent blocking-loop
checks, `tBody` the time inside the body. -/
def process_batch_when_ready (s : LockedBuffer) (timeout : Int)
    (block procRaises : Bool) (t0 : Int) (ts : List Int) (tBody : Int) :
    Option (Bool × LockedBuffer) :=
  if block then
    Option.bind (waitLoop s timeout (t0 :: ts)) fun s1 =>
      processBody s1 procRaises tBody
  else
    Option.bind (is_readyL s timeout t0) fun rs =>
      if rs.1 then processBody rs.2 procRaises tBody else some (false, rs.2)

end LockedBuffer

end CDC

namespace CDC

/-- `is_ready_for_processing` never changes the buffer contents. -/
theorem CircularBuffer.is_ready_preserves_buffer (b : CircularBuffer)
    (timeout now : Int) :
    (b.is_ready_for_processing timeout now).2.buffer = b.buffer := by
  simp only [CircularBuffer.is_ready_for_processing]
  split_ifs <;> rfl

/-- When `is_ready_for_processing` answers `true` it returns the buffer
unchanged. -/
theorem CircularBuffer.is_ready_true_id (b : CircularBuffer) (timeout now : Int)
    (h : (b.is_ready_for_processing timeout now).1 = true) :
    b.is_ready_for_processing timeout now = (true, b) := by
  simp only [CircularBuffer.is_ready_for_processing] at *
  split_ifs at h ⊢ <;> simp_all

namespace LockedBuffer

theorem processBody_raises (b : CircularBuffer) (now : Int) :
    processBody ⟨b, false⟩ true now = some (false, ⟨b, false⟩) := by
  simp only [processBody, acquire, release]
  norm_num

theorem processBody_result_false (b : CircularBuffer) (p : Bool) (now : Int) :
    ∀ r, processBody ⟨b, false⟩ p now = some r → r.1 = false := by
  intro r hr
  simp only [processBody, acquire, release, clear_batchL] at hr
  norm_num at hr
  split_ifs at hr with h1 h2
  · rw [← Option.some_inj.mp hr]
  · rw [← Option.some_inj.mp hr]

theorem processBody_no_raise_nonempty (b : CircularBuffer) (now : Int)
    (hne : b.buffer ≠ []) :
    processBody ⟨b, false⟩ false now = none := by
  simp only [processBody, acquire, release, clear_batchL]
  norm_num
  intro h
  exact absurd h hne

theorem is_readyL_unlocked (b : CircularBuffer) (timeout now : Int) :
    is_readyL ⟨b, false⟩ timeout now =
      some ((b.is_ready_for_processing timeout now).1,
        ⟨(b.is_ready_for_processing timeout now).2, false⟩) := by
  simp only [is_readyL, acquire, release]
  norm_num

theorem waitLoop_inv (timeout : Int) (ts : List Int) :
    ∀ (b : CircularBuffer) (s' : LockedBuffer),
      waitLoop ⟨b, false⟩ timeout ts = some s' →
        s'.locked = false ∧ s'.buf.buffer = b.buffer := by
  induction ts with
  | nil =>
    intro b s' h
    simp [waitLoop] at h
  | cons t ts ih =>
    intro b s' h
    rw [waitLoop, is_readyL_unlocked b timeout t] at h
    simp only [Option.some_bind] at h
    split_ifs at h with hr
    · obtain rfl := Option.some_inj.mp h
      refine ⟨rfl, ?_⟩
      exact CircularBuffer.is_ready_preserves_buffer b timeout t
    · obtain ⟨h1, h2⟩ := ih _ s' h
      exact ⟨h1, h2.trans (CircularBuffer.is_ready_preserves_buffer b timeout t)⟩

end LockedBuffer

/-- C9: whenever the processing callback raises, every returning call
of `process_batch_when_ready` returns `False` and leaves the buffer
contents exactly as they were (no partial clear), so the same batch is
seen again at the next readiness check; moreover on a buffer that is
non-empty and ready at the first check the call does return, with the
entire state unchanged. -/
theorem C9_raising_processor_leaves_buffer (s : LockedBuffer) (timeout : Int)
    (block : Bool) (t0 : Int) (ts : List Int) (tBody : Int)
    (hlock : s.locked = false) :
    (∀ res, LockedBuffer.process_batch_when_ready s timeout block true t0 ts tBody =
        some res → res.1 = false ∧ res.2.buf.buffer = s.buf.buffer) ∧
    (s.buf.buffer ≠ [] → (s.buf.is_ready_for_processing timeout t0).1 = true →
      LockedBuffer.process_batch_when_ready s timeout block true t0 ts tBody =
        some (false, s)) := by
  obtain ⟨b, l⟩ := s
  simp only at hlock
  subst hlock
  constructor
  · intro res hres
    simp only [LockedBuffer.process_batch_when_ready] at hres
    by_cases hb : block
    · rw [if_pos hb] at hres
      cases hw : LockedBuffer.waitLoop ⟨b, false⟩ timeout (t0 :: ts) with
      | none => rw [hw] at hres; exact absurd hres (by simp)
      | some s1 =>
        rw [hw] at hres
        obtain ⟨hl1, hb1⟩ := LockedBuffer.waitLoop_inv timeout (t0 :: ts) b s1 hw
        obtain ⟨b1, l1⟩ := s1
        simp only at hl1 hb1
        subst hl1
        rw [Option.some_bind, LockedBuffer.processBody_raises b1 tBody] at hres
        obtain rfl := Option.some_inj.mp hres
        exact ⟨rfl, hb1⟩
    · rw [if_neg hb, LockedBuffer.is_readyL_unlocked b timeout t0,
        Option.some_bind] at hres
      split_ifs at hres with hr
      · rw [LockedBuffer.processBody_raises _ tBody] at hres
        obtain rfl := Option.some_inj.mp hres
        exact ⟨rfl, CircularBuffer.is_ready_preserves_buffer b timeout t0⟩
      · obtain rfl := Option.some_inj.mp hres
        exact ⟨rfl, CircularBuffer.is_ready_preserves_buffer b timeout t0⟩
  · intro hne hready
    have hid := CircularBuffer.is_ready_true_id b timeout t0 hready
    simp only [LockedBuffer.process_batch_when_ready]
    by_cases hb : block
    · rw [if_pos hb, LockedBuffer.waitLoop,
        LockedBuffer.is_readyL_unlocked b timeout t0, hid, Option.some_bind]
      norm_num
      exact LockedBuffer.processBody_raises b tBody
    · rw [if_neg hb, LockedBuffer.is_readyL_unlocked b timeout t0, hid,
        Option.some_bind]
      norm_num
      exact LockedBuffer.processBody_raises b tBody

theorem C9_raising_processor_leaves_buffer_witness :
    (false : Bool) = false ∧
    LockedBuffer.process_batch_when_ready
      { buf := { max_size := 3, buffer := [1, 2, 3], last_batch_time := 0 },
        locked := false } 5 true true 0 [] 0 =
      some (false,
        { buf := { max_size := 3, buffer := [1, 2, 3], last_batch_time := 0 },
          locked := false }) := by
  refine ⟨rfl, ?_⟩
  exact (C9_raising_processor_leaves_buffer
    { buf := { max_size := 3, buffer := [1, 2, 3], last_batch_time := 0 },
      locked := false } 5 true 0 [] 0 rfl).2 (by decide) (by decide)

/-- C10: the success path of `process_batch_when_ready` is unreachable.
Any call that returns returns `False`; and on a non-empty buffer that
is ready at the first check, with a callback that does not raise, the
call never returns (`none`): while still holding the buffer's single
non-reentrant lock it calls `clear_batch`, which blocks forever
re-acquiring that same lock. -/
theorem C10_success_path_deadlocks (s : LockedBuffer) (timeout : Int)
    (block : Bool) (t0 : Int) (ts : List Int) (tBody : Int) (procRaises : Bool)
    (hlock : s.locked = false) :
    (∀ res, LockedBuffer.process_batch_when_ready s timeout block procRaises t0 ts
        tBody = some res → res.1 = false) ∧
    (s.buf.buffer ≠ [] → (s.buf.is_ready_for_processing timeout t0).1 = true →
      LockedBuffer.process_batch_when_ready s timeout block false t0 ts tBody =
        none) := by
  obtain ⟨b, l⟩ := s
  simp only at hlock
  subst hlock
  constructor
  · intro res hres
    simp only [LockedBuffer.process_batch_when_ready] at hres
    by_cases hb : block
    · rw [if_pos hb] at hres
      cases hw : LockedBuffer.waitLoop ⟨b, false⟩ timeout (t0 :: ts) with
      | none => rw [hw] at hres; exact absurd hres (by simp)
      | some s1 =>
        rw [hw] at hres
        obtain ⟨hl1, _⟩ := LockedBuffer.waitLoop_inv timeout (t0 :: ts) b s1 hw
        obtain ⟨b1, l1⟩ := s1
        simp only at hl1
        subst hl1
        rw [Option.some_bind] at hres
        exact LockedBuffer.processBody_result_false b1 procRaises tBody res hres
    · rw [if_neg hb, LockedBuffer.is_readyL_unlocked b timeout t0,
        Option.some_bind] at hres
      split_ifs at hres with hr
      · exact LockedBuffer.processBody_result_false _ procRaises tBody res hres
      · obtain rfl := Option.some_inj.mp hres
        rfl
  · intro hne hready
    have hid := CircularBuffer.is_ready_true_id b timeout t0 hready
    simp only [LockedBuffer.process_batch_when_ready]
    by_cases hb : block
    · rw [if_pos hb, LockedBuffer.waitLoop,
        LockedBuffer.is_readyL_unlocked b timeout t0, hid, Option.some_bind]
      norm_num
      exact LockedBuffer.processBody_no_raise_nonempty b tBody hne
    · rw [if_neg hb, LockedBuffer.is_readyL_unlocked b timeout t0, hid,
        Option.some_bind]
      norm_num
      exact LockedBuffer.processBody_no_raise_nonempty b tBody hne

theorem C10_success_path_deadlocks_witness :
    (false : Bool) = false ∧
    LockedBuffer.process_batch_when_ready
      { buf := { max_size := 3, buffer := [1, 2, 3], last_batch_time := 0 },
        locked := false } 5 true false 0 [] 0 = none := by
  refine ⟨rfl, ?_⟩
  exact (C10_success_path_deadlocks
    { buf := { max_size := 3, buffer := [1, 2, 3], last_batch_time := 0 },
      locked := false } 5 true 0 [] 0 false rfl).2 (by decide) (by decide)

end CDC

namespace CDC

/-- A Python row snapshot dict as seen by `merge_consecutive_events`
(src/app/cdc/event_merger.py): `id` models `row.get(\'id\')` (absent key
gives `none`), `payload` stands for the remaining row fields so distinct
rows stay distinguishable. -/
structure Row where
  id : Option Int
  payload : Nat
  deriving Repr, DecidableEq

/-- `event[\'value\']` of a Debezium envelope: for `before`/`after` the
outer `Option` models key presence and the inner `Option` models JSON
null (Python `None`). -/
structure EventValue where
  before : Option (Option Row)
  after : Option (Option Row)
  deriving Repr, DecidableEq

/-- A decoded CDC event dict as built by `CDCConsumer._consume_loop`:
`hasValue` models the presence of the `\'value\'` key, `offset` is
transport metadata keeping distinct events distinguishable. -/
structure PyEvent where
  hasValue : Bool
  value : EventValue
  table : Option String
  operation : Option String
  offset : Int
  deriving Repr, DecidableEq

/-- Uncaught Python exceptions that `merge_consecutive_events` can
raise: `event[\'value\'][\'after\'].get(key)` on a null `after` raises
`AttributeError`. -/
inductive PyError where
  | attributeError
  deriving Repr, DecidableEq

/-- Python truthiness filter `if not entity_id: continue` —
both a missing id and the id `0` are treated as unresolvable. -/
def truthyId : Option Int → Option Int
  | none => none
  | some i => if i = 0 then none else some i

/-- CPython (≥3.7) dict assignment `merged_events[entity_id] = event`:
an existing key keeps its position and gets the new value; a fresh key
is appended. -/
def dictInsert (d : List (Int × PyEvent)) (k : Int) (v : PyEvent) :
    List (Int × PyEvent) :=
  if d.any (fun p => p.1 = k) then
    d.map (fun p => if p.1 = k then (k, v) else p)
  else d ++ [(k, v)]

/-- One iteration of the loop in `merge_consecutive_events`
(event_merger.py lines 23-36): skip (with a warning) events missing the
`value`/`after` keys or a truthy `after.id`; raise `AttributeError`
when `after` is present but null; otherwise assign into the dict. -/
def mergeStep (acc : List (Int × PyEvent)) (event : PyEvent) :
    Except PyError (List (Int × PyEvent)) :=
  if event.hasValue then
    match event.value.after with
    | none => .ok acc
    | some none => .error .attributeError
    | some (some row) =>
      match truthyId row.id with
      | none => .ok acc
      | some i => .ok (dictInsert acc i event)
  else .ok acc

def mergeLoop (acc : List (Int × PyEvent)) :
    List PyEvent → Except PyError (List (Int × PyEvent))
  | [] => .ok acc
  | e :: es =>
    match mergeStep acc e with
    | .error err => .error err
    | .ok acc1 => mergeLoop acc1 es

/-- `merge_consecutive_events` (event_merger.py lines 7-38) with the
default `entity_id_key=\'id\'`: fold the events through the dict and
return `list(merged_events.values())`. -/
def merge_consecutive_events (events : List PyEvent) :
    Except PyError (List PyEvent) :=
  match mergeLoop [] events with
  | .error e => .error e
  | .ok d => .ok (d.map (·.2))

/-- The merge identity the code actually resolves for an event: always
`value[\'after\'].get(\'id\')` run through Python truthiness —
`before` is never consulted, for deletes included. -/
def mergedKey (e : PyEvent) : Option Int :=
  if e.hasValue then
    match e.value.after with
    | some (some row) => truthyId row.id
    | _ => none
  else none

def mergeFoldStep (acc : List (Int × PyEvent)) (e : PyEvent) :
    List (Int × PyEvent) :=
  match mergedKey e with
  | none => acc
  | some k => dictInsert acc k e

def mergeFold (acc : List (Int × PyEvent)) (events : List PyEvent) :
    List (Int × PyEvent) :=
  events.foldl mergeFoldStep acc

def keysOf (d : List (Int × PyEvent)) : List Int := d.map (·.1)

theorem mergeStep_null (acc : List (Int × PyEvent)) (e : PyEvent)
    (h1 : e.hasValue = true) (h2 : e.value.after = some none) :
    mergeStep acc e = .error .attributeError := by
  obtain ⟨hv, ⟨vb, va⟩, tb, op, off⟩ := e
  simp only at h1 h2
  subst h1
  subst h2
  rfl

theorem mergeStep_ok_of_not_null (acc : List (Int × PyEvent)) (e : PyEvent)
    (h : ¬(e.hasValue = true ∧ e.value.after = some none)) :
    mergeStep acc e = .ok (mergeFoldStep acc e) := by
  obtain ⟨hv, ⟨vb, va⟩, tb, op, off⟩ := e
  cases hv with
  | false => rfl
  | true =>
    cases va with
    | none => rfl
    | some r =>
      cases r with
      | none => exact absurd ⟨rfl, rfl⟩ h
      | some row =>
        cases htr : truthyId row.id with
        | none => simp [mergeStep, mergeFoldStep, mergedKey, htr]
        | some i => simp [mergeStep, mergeFoldStep, mergedKey, htr]

theorem mergeStep_ok_inv (acc acc1 : List (Int × PyEvent)) (e : PyEvent)
    (h : mergeStep acc e = .ok acc1) : acc1 = mergeFoldStep acc e := by
  by_cases hn : e.hasValue = true ∧ e.value.after = some none
  · rw [mergeStep_null acc e hn.1 hn.2] at h
    exact absurd h (by simp)
  · rw [mergeStep_ok_of_not_null acc e hn] at h
    exact (Except.ok.inj h).symm

theorem mergeLoop_eq_fold (events : List PyEvent) :
    ∀ acc, (∀ e ∈ events, ¬(e.hasValue = true ∧ e.value.after = some none)) →
      mergeLoop acc events = .ok (mergeFold acc events) := by
  induction events with
  | nil => intro acc _; rfl
  | cons e es ih =>
    intro acc h
    rw [mergeLoop, mergeStep_ok_of_not_null acc e (h e (by simp))]
    exact ih _ (fun x hx => h x (by simp [hx]))

theorem mergeLoop_ok_inv (events : List PyEvent) :
    ∀ acc d, mergeLoop acc events = .ok d → d = mergeFold acc events := by
  induction events with
  | nil => intro acc d h; exact (Except.ok.inj h).symm
  | cons e es ih =>
    intro acc d h
    rw [mergeLoop] at h
    cases hs : mergeStep acc e with
    | error err => rw [hs] at h; exact absurd h (by simp)
    | ok acc1 =>
      rw [hs] at h
      have h2 := mergeStep_ok_inv acc acc1 e hs
      subst h2
      exact ih _ d h

theorem any_keys (d : List (Int × PyEvent)) (k : Int) :
    (d.any (fun p => p.1 = k)) = true ↔ k ∈ keysOf d := by
  simp only [List.any_eq_true, keysOf, List.mem_map, decide_eq_true_eq]

theorem keysOf_dictInsert (d : List (Int × PyEvent)) (k : Int) (v : PyEvent) :
    keysOf (dictInsert d k v) =
      if k ∈ keysOf d then keysOf d else keysOf d ++ [k] := by
  simp only [dictInsert]
  by_cases hk : k ∈ keysOf d
  · rw [if_pos ((any_keys d k).mpr hk), if_pos hk]
    simp only [keysOf, List.map_map]
    apply List.map_congr_left
    intro p _
    simp only [Function.comp_apply]
    split_ifs with h
    · exact h.symm
    · rfl
  · rw [if_neg (fun hc => hk ((any_keys d k).mp hc)), if_neg hk]
    simp [keysOf]

theorem mem_dictInsert (d : List (Int × PyEvent)) (k : Int) (v : PyEvent)
    (p : Int × PyEvent) (hp : p ∈ dictInsert d k v) : p ∈ d ∨ p = (k, v) := by
  simp only [dictInsert] at hp
  split_ifs at hp with hk
  · obtain ⟨q, hq, hq2⟩ := List.mem_map.mp hp
    split_ifs at hq2 with h
    · right; exact hq2.symm
    · left; exact hq2 ▸ hq
  · rcases List.mem_append.mp hp with h | h
    · left; exact h
    · right; simpa using h

def wellKeyed (d : List (Int × PyEvent)) : Prop :=
  ∀ p ∈ d, mergedKey p.2 = some p.1

theorem wellKeyed_dictInsert (d : List (Int × PyEvent)) (k : Int) (v : PyEvent)
    (hd : wellKeyed d) (hv : mergedKey v = some k) :
    wellKeyed (dictInsert d k v) := by
  intro p hp
  rcases mem_dictInsert d k v p hp with h | h
  · exact hd p h
  · rw [h]; exact hv

theorem mergeFoldStep_none (acc : List (Int × PyEvent)) (e : PyEvent)
    (h : mergedKey e = none) : mergeFoldStep acc e = acc := by
  simp [mergeFoldStep, h]

theorem mergeFoldStep_some (acc : List (Int × PyEvent)) (e : PyEvent) (k : Int)
    (h : mergedKey e = some k) : mergeFoldStep acc e = dictInsert acc k e := by
  simp [mergeFoldStep, h]

theorem mergeFold_keys_nodup (events : List PyEvent) :
    ∀ acc, (keysOf acc).Nodup → (keysOf (mergeFold acc events)).Nodup := by
  induction events with
  | nil => intro acc h; exact h
  | cons e es ih =>
    intro acc h
    show (keysOf (mergeFold (mergeFoldStep acc e) es)).Nodup
    apply ih
    cases hk : mergedKey e with
    | none => rw [mergeFoldStep_none acc e hk]; exact h
    | some k =>
      rw [mergeFoldStep_some acc e k hk, keysOf_dictInsert]
      split_ifs with hmem
      · exact h
      · simp [List.nodup_append, h, hmem]

theorem mergeFold_wellKeyed (events : List PyEvent) :
    ∀ acc, wellKeyed acc → wellKeyed (mergeFold acc events) := by
  induction events with
  | nil => intro acc h; exact h
  | cons e es ih =>
    intro acc h
    show wellKeyed (mergeFold (mergeFoldStep acc e) es)
    apply ih
    cases hk : mergedKey e with
    | none => rw [mergeFoldStep_none acc e hk]; exact h
    | some k =>
      rw [mergeFoldStep_some acc e k hk]
      exact wellKeyed_dictInsert acc k e h hk

theorem mergeFold_provenance (events : List PyEvent) :
    ∀ acc p, p ∈ mergeFold acc events → p ∈ acc ∨ p.2 ∈ events := by
  induction events with
  | nil => intro acc p h; exact Or.inl h
  | cons e es ih =>
    intro acc p h
    rcases ih (mergeFoldStep acc e) p h with h1 | h1
    · cases hk : mergedKey e with
      | none =>
        rw [mergeFoldStep_none acc e hk] at h1
        exact Or.inl h1
      | some k =>
        rw [mergeFoldStep_some acc e k hk] at h1
        rcases mem_dictInsert acc k e p h1 with h2 | h2
        · exact Or.inl h2
        · right; rw [h2]; simp
    · right; simp [h1]

theorem mergeFold_keys_iff (events : List PyEvent) :
    ∀ acc k, k ∈ keysOf (mergeFold acc events) ↔
      k ∈ keysOf acc ∨ ∃ e ∈ events, mergedKey e = some k := by
  induction events with
  | nil => intro acc k; simp [mergeFold]
  | cons e es ih =>
    intro acc k
    show k ∈ keysOf (mergeFold (mergeFoldStep acc e) es) ↔ _
    rw [ih]
    cases hk : mergedKey e with
    | none =>
      rw [mergeFoldStep_none acc e hk]
      constructor
      · rintro (h | h)
        · exact Or.inl h
        · right; obtain ⟨x, hx, hx2⟩ := h; exact ⟨x, by simp [hx], hx2⟩
      · rintro (h | h)
        · exact Or.inl h
        · obtain ⟨x, hx, hx2⟩ := h
          rcases List.mem_cons.mp hx with rfl | hx3
          · rw [hk] at hx2; exact absurd hx2 (by simp)
          · exact Or.inr ⟨x, hx3, hx2⟩
    | some k0 =>
      rw [mergeFoldStep_some acc e k0 hk, keysOf_dictInsert]
      by_cases hmem : k0 ∈ keysOf acc
      · rw [if_pos hmem]
        constructor
        · rintro (h | h)
          · exact Or.inl h
          · right; obtain ⟨x, hx, hx2⟩ := h; exact ⟨x, by simp [hx], hx2⟩
        · rintro (h | h)
          · exact Or.inl h
          · obtain ⟨x, hx, hx2⟩ := h
            rcases List.mem_cons.mp hx with rfl | hx3
            · rw [hk] at hx2
              obtain rfl := Option.some_inj.mp hx2
              exact Or.inl hmem
            · exact Or.inr ⟨x, hx3, hx2⟩
      · rw [if_neg hmem]
        simp only [List.mem_append, List.mem_singleton]
        constructor
        · rintro ((h | rfl) | h)
          · exact Or.inl h
          · exact Or.inr ⟨e, by simp, hk⟩
          · right; obtain ⟨x, hx, hx2⟩ := h; exact ⟨x, by simp [hx], hx2⟩
        · rintro (h | h)
          · exact Or.inl (Or.inl h)
          · obtain ⟨x, hx, hx2⟩ := h
            rcases List.mem_cons.mp hx with rfl | hx3
            · rw [hk] at hx2
              obtain rfl := Option.some_inj.mp hx2
              exact Or.inl (Or.inr rfl)
            · exact Or.inr ⟨x, hx3, hx2⟩

theorem mergedKey_some_not_null (e : PyEvent) (k : Int)
    (h : mergedKey e = some k) :
    ¬(e.hasValue = true ∧ e.value.after = some none) := by
  rintro ⟨h1, h2⟩
  simp [mergedKey, h1, h2] at h

theorem mergeFold_of_fresh (d : List (Int × PyEvent)) :
    ∀ acc, wellKeyed d → (keysOf d).Nodup →
      (∀ k ∈ keysOf d, k ∉ keysOf acc) →
      mergeFold acc (d.map (·.2)) = acc ++ d := by
  induction d with
  | nil => intro acc _ _ _; simp [mergeFold]
  | cons p d ih =>
    intro acc hwk hnd hdisj
    have hk : mergedKey p.2 = some p.1 := hwk p (by simp)
    have hfresh : p.1 ∉ keysOf acc := hdisj p.1 (by simp [keysOf])
    have hstep : mergeFoldStep acc p.2 = acc ++ [p] := by
      rw [mergeFoldStep_some acc p.2 p.1 hk]
      simp only [dictInsert]
      rw [if_neg (fun hc => hfresh ((any_keys acc p.1).mp hc))]
    have hkeys : keysOf (p :: d) = p.1 :: keysOf d := rfl
    rw [hkeys] at hnd
    have hnd2 := List.nodup_cons.mp hnd
    show mergeFold (mergeFoldStep acc p.2) (d.map (·.2)) = acc ++ p :: d
    rw [hstep, ih (acc ++ [p]) (fun q hq => hwk q (by simp [hq])) hnd2.2 ?_]
    · simp
    · intro k hkd
      have hne : k ≠ p.1 := fun hc => hnd2.1 (hc ▸ hkd)
      have hnacc : k ∉ keysOf acc :=
        hdisj k (hkeys ▸ List.mem_cons_of_mem p.1 hkd)
      simp only [keysOf, List.map_append, List.mem_append] at hnacc ⊢
      rintro (h | h)
      · exact hnacc h
      · simp only [List.map_cons, List.map_nil, List.mem_singleton] at h
        exact hne h

theorem mergeFold_all_same (i : Int) :
    ∀ (es : List PyEvent) (e0 : PyEvent), (∀ e ∈ es, mergedKey e = some i) →
      mergeFold [(i, e0)] es =
        [(i, (e0 :: es).getLast (List.cons_ne_nil e0 es))] := by
  intro es
  induction es with
  | nil => intro e0 _; rfl
  | cons e es ih =>
    intro e0 hall
    have hk : mergedKey e = some i := hall e (by simp)
    have hstep : mergeFoldStep [(i, e0)] e = [(i, e)] := by
      rw [mergeFoldStep_some _ e i hk]
      simp [dictInsert]
    show mergeFold (mergeFoldStep [(i, e0)] e) es = _
    rw [hstep, ih e (fun x hx => hall x (by simp [hx]))]
    have hlast : (e0 :: e :: es).getLast (List.cons_ne_nil e0 (e :: es)) =
        (e :: es).getLast (List.cons_ne_nil e es) :=
      List.getLast_cons (List.cons_ne_nil e es)
    rw [hlast]

/-- No event triggers the `AttributeError` path (no present-but-null
`after`). -/
abbrev mergeOk (events : List PyEvent) : Prop :=
  ∀ e ∈ events, ¬(e.hasValue = true ∧ e.value.after = some none)

theorem merge_eq_fold (events : List PyEvent) (h : mergeOk events) :
    merge_consecutive_events events = .ok ((mergeFold [] events).map (·.2)) := by
  rw [merge_consecutive_events, mergeLoop_eq_fold events [] h]

theorem merge_ok_inv (events out : List PyEvent)
    (h : merge_consecutive_events events = .ok out) :
    out = (mergeFold [] events).map (·.2) := by
  rw [merge_consecutive_events] at h
  cases hd : mergeLoop [] events with
  | error e => rw [hd] at h; exact absurd h (by simp)
  | ok d =>
    rw [hd] at h
    obtain rfl := (Except.ok.inj h).symm
    rw [mergeLoop_ok_inv events [] d hd]

/-- C7: `merge_consecutive_events` is idempotent — applied to its own
output it returns the same list — and when every input event shares one
entity id the output is exactly the temporally-last input event. -/
theorem C7_merge_idempotent_last_wins (evs out : List PyEvent)
    (h : merge_consecutive_events evs = .ok out) :
    merge_consecutive_events out = .ok out ∧
    (∀ (i : Int) (hne : evs ≠ []), (∀ e ∈ evs, mergedKey e = some i) →
      out = [evs.getLast hne]) := by
  have hout := merge_ok_inv evs out h
  constructor
  · have hwk : wellKeyed (mergeFold [] evs) :=
      mergeFold_wellKeyed evs [] (fun p hp => absurd hp (List.not_mem_nil p))
    have hnd : (keysOf (mergeFold [] evs)).Nodup :=
      mergeFold_keys_nodup evs [] List.nodup_nil
    have hok : mergeOk out := by
      intro e he
      rw [hout] at he
      obtain ⟨p, hp, rfl⟩ := List.mem_map.mp he
      exact mergedKey_some_not_null p.2 p.1 (hwk p hp)
    rw [merge_eq_fold out hok, hout,
      mergeFold_of_fresh (mergeFold [] evs) [] hwk hnd
        (fun k _ hc => List.not_mem_nil k hc)]
    simp
  · intro i hne hall
    cases evs with
    | nil => exact absurd rfl hne
    | cons e es =>
      have hk : mergedKey e = some i := hall e (by simp)
      have hstep : mergeFoldStep [] e = [(i, e)] := by
        rw [mergeFoldStep_some [] e i hk]
        rfl
      rw [hout]
      show (mergeFold (mergeFoldStep [] e) es).map (·.2) = _
      rw [hstep, mergeFold_all_same i es e (fun x hx => hall x (by simp [hx]))]
      rfl

/-- C4 amended: the merge identity is resolved as `after.id` for every
operation — `before.id` is never consulted, deletes included; an event
whose `after` key is present but null raises an uncaught
`AttributeError` (excluded here by `mergeOk`); the surviving events are
exactly those with a truthy resolvable `after.id`, merged per id. -/
theorem C4_merge_identity_amended (evs : List PyEvent) (hwf : mergeOk evs) :
    ∃ out, merge_consecutive_events evs = .ok out ∧
      (∀ e ∈ out, e ∈ evs ∧ mergedKey e ≠ none) ∧
      (∀ k : Int, (∃ e ∈ evs, mergedKey e = some k) ↔
        (∃ e ∈ out, mergedKey e = some k)) := by
  refine ⟨(mergeFold [] evs).map (·.2), merge_eq_fold evs hwf, ?_, ?_⟩
  · intro e he
    obtain ⟨p, hp, rfl⟩ := List.mem_map.mp he
    have hwk : wellKeyed (mergeFold [] evs) :=
      mergeFold_wellKeyed evs [] (fun q hq => absurd hq (List.not_mem_nil q))
    refine ⟨?_, by rw [hwk p hp]; exact Option.some_ne_none p.1⟩
    rcases mergeFold_provenance evs [] p hp with h1 | h1
    · exact absurd h1 (List.not_mem_nil p)
    · exact h1
  · intro k
    have hwk : wellKeyed (mergeFold [] evs) :=
      mergeFold_wellKeyed evs [] (fun q hq => absurd hq (List.not_mem_nil q))
    have hkeys := mergeFold_keys_iff evs [] k
    simp only [keysOf, List.map_nil, List.not_mem_nil, false_or] at hkeys
    constructor
    · intro hx
      have hk2 : k ∈ List.map (fun p => p.1) (mergeFold [] evs) := hkeys.mpr hx
      obtain ⟨p, hp, rfl⟩ := List.mem_map.mp hk2
      exact ⟨p.2, List.mem_map.mpr ⟨p, hp, rfl⟩, hwk p hp⟩
    · rintro ⟨e, he, hke⟩
      obtain ⟨p, hp, rfl⟩ := List.mem_map.mp he
      rw [hwk p hp] at hke
      obtain rfl := Option.some_inj.mp hke
      exact hkeys.mp (List.mem_map.mpr ⟨p, hp, rfl⟩)

/-- A typical Debezium delete event: `before` carries the row
(id 7), `after` is present but null. -/
def deleteEventNullAfter : PyEvent :=
  { hasValue := true
    value := { before := some (some { id := some 7, payload := 0 })
               after := some none }
    table := some "teams"
    operation := some "d"
    offset := 10 }

/-- A delete event whose envelope lacks the `after` key entirely while
`before.id` is resolvable (id 3). -/
def deleteEventNoAfterKey : PyEvent :=
  { hasValue := true
    value := { before := some (some { id := some 3, payload := 1 })
               after := none }
    table := some "teams"
    operation := some "d"
    offset := 11 }

/-- C4 counterexample: a delete event carrying a resolvable
`before.id` is NOT kept and merged under that id — with `after` present
but null the function raises `AttributeError`, and with the `after` key
absent the event is silently dropped. -/
theorem C4_delete_identity_counterexample :
    merge_consecutive_events [deleteEventNullAfter] =
      .error .attributeError ∧
    merge_consecutive_events [deleteEventNoAfterKey] = .ok [] :=
  ⟨rfl, rfl⟩

end CDC

namespace CDC

/-- An update event for entity id 5 (first version of the row). -/
def updateEventA : PyEvent :=
  { hasValue := true
    value := { before := none
               after := some (some { id := some 5, payload := 0 }) }
    table := some "teams"
    operation := some "u"
    offset := 1 }

/-- A later update event for the same entity id 5. -/
def updateEventB : PyEvent :=
  { hasValue := true
    value := { before := none
               after := some (some { id := some 5, payload := 2 }) }
    table := some "teams"
    operation := some "u"
    offset := 2 }

theorem C7_merge_idempotent_last_wins_witness :
    merge_consecutive_events [updateEventA, updateEventB] =
      .ok [updateEventB] ∧
    merge_consecutive_events [updateEventB] = .ok [updateEventB] ∧
    [updateEventB] =
      [[updateEventA, updateEventB].getLast (by decide)] := by
  have h : merge_consecutive_events [updateEventA, updateEventB] =
      .ok [updateEventB] := rfl
  exact ⟨h, (C7_merge_idempotent_last_wins _ _ h).1,
    (C7_merge_idempotent_last_wins _ _ h).2 5 (by decide) (by decide)⟩

theorem C4_merge_identity_amended_witness :
    ∃ out, merge_consecutive_events [deleteEventNoAfterKey, updateEventA] =
        .ok out ∧
      (∀ e ∈ out, e ∈ [deleteEventNoAfterKey, updateEventA] ∧
        mergedKey e ≠ none) ∧
      (∀ k : Int,
        (∃ e ∈ [deleteEventNoAfterKey, updateEventA], mergedKey e = some k) ↔
        (∃ e ∈ out, mergedKey e = some k)) :=
  C4_merge_identity_amended [deleteEventNoAfterKey, updateEventA] (by decide)

end CDC

namespace CDC

/-- `CircuitState` (src/app/utils/circuit_breaker.py): `circOpen` and
`halfOpen` model the source\'s `OPEN` and `HALF_OPEN` states. -/
inductive CircuitState where
  | closed
  | circOpen
  | halfOpen
  deriving Repr, DecidableEq

/-- Embedding of `CircuitBreaker.__init__`: configuration plus mutable
state (`state`, `failure_count`, `last_failure_time`, `success_count`). -/
structure CircuitBreaker where
  failure_threshold : Nat
  recovery_timeout : Int
  state : CircuitState
  failure_count : Nat
  last_failure_time : Int
  success_count : Nat
  deriving Repr, DecidableEq

/-- `CircuitBreaker.__init__`: starts CLOSED with zeroed counters. -/
def CircuitBreaker.init (failureThreshold : Nat) (recoveryTimeout : Int) :
    CircuitBreaker :=
  { failure_threshold := failureThreshold
    recovery_timeout := recoveryTimeout
    state := .closed
    failure_count := 0
    last_failure_time := 0
    success_count := 0 }

/-- `CircuitBreaker.can_execute` (lines 51-76): CLOSED and HALF_OPEN
always allow; OPEN transitions to HALF_OPEN and allows once
`recovery_timeout` has elapsed since the last failure, else rejects. -/
def can_execute (cb : CircuitBreaker) (now : Int) : Bool × CircuitBreaker :=
  match cb.state with
  | .closed => (true, cb)
  | .circOpen =>
    if cb.recovery_timeout ≤ now - cb.last_failure_time then
      (true, { cb with state := .halfOpen })
    else (false, cb)
  | .halfOpen => (true, cb)

/-- `CircuitBreaker.record_success` (lines 78-95): in HALF_OPEN the
incremented success count must reach 2 to close the circuit; in CLOSED
with outstanding failures, 5 successes reset the failure count. -/
def record_success (cb : CircuitBreaker) : CircuitBreaker :=
  match cb.state with
  | .halfOpen =>
    if 2 ≤ cb.success_count + 1 then
      { cb with state := .closed, failure_count := 0, success_count := 0 }
    else { cb with success_count := cb.success_count + 1 }
  | .closed =>
    if 0 < cb.failure_count then
      if 5 ≤ cb.success_count + 1 then
        { cb with failure_count := 0, success_count := 0 }
      else { cb with success_count := cb.success_count + 1 }
    else cb
  | .circOpen => cb

/-- `CircuitBreaker.record_failure` (lines 97-111): stamps
`last_failure_time`; HALF_OPEN reopens immediately; otherwise the
failure count increments and a CLOSED breaker reaching the threshold
opens. -/
def record_failure (cb : CircuitBreaker) (now : Int) : CircuitBreaker :=
  match cb.state with
  | .halfOpen =>
    { cb with
        last_failure_time := now
        state := .circOpen
        success_count := 0 }
  | .closed =>
    if cb.failure_threshold ≤ cb.failure_count + 1 then
      { cb with
          last_failure_time := now
          failure_count := cb.failure_count + 1
          state := .circOpen
          success_count := 0 }
    else
      { cb with
          last_failure_time := now
          failure_count := cb.failure_count + 1 }
  | .circOpen =>
    { cb with
        last_failure_time := now
        failure_count := cb.failure_count + 1 }

/-- Outcome of one call through the `circuit` decorator wrapper
(lines 149-164, no fallback): `rejected` means `CircuitBreakerError`
was raised and the wrapped function was NOT invoked. -/
inductive CallResult where
  | rejected
  | ok
  | failed
  deriving Repr, DecidableEq

/-- The decorator wrapper: consult `can_execute`; if allowed run the
wrapped function (its outcome abstracted as `fnSucceeds`) and record
success or failure; otherwise reject without invoking it. -/
def callThrough (cb : CircuitBreaker) (now : Int) (fnSucceeds : Bool) :
    CallResult × CircuitBreaker :=
  let ac := can_execute cb now
  if ac.1 then
    if fnSucceeds then (.ok, record_success ac.2)
    else (.failed, record_failure ac.2 now)
  else (.rejected, ac.2)

/-- A sequence of consecutive `record_failure` calls at times `ts`. -/
def failN (cb : CircuitBreaker) (ts : List Int) : CircuitBreaker :=
  ts.foldl record_failure cb

theorem record_failure_preserves_open (cb : CircuitBreaker) (t : Int)
    (h : cb.state = .circOpen) : (record_failure cb t).state = .circOpen := by
  simp [record_failure, h]

theorem record_failure_closed_reach (cb : CircuitBreaker) (t : Int)
    (hst : cb.state = .closed)
    (hth : cb.failure_threshold ≤ cb.failure_count + 1) :
    record_failure cb t =
      { cb with
          last_failure_time := t
          failure_count := cb.failure_count + 1
          state := .circOpen
          success_count := 0 } := by
  simp [record_failure, hst, hth]

theorem record_failure_closed_below (cb : CircuitBreaker) (t : Int)
    (hst : cb.state = .closed)
    (hth : ¬ cb.failure_threshold ≤ cb.failure_count + 1) :
    record_failure cb t =
      { cb with
          last_failure_time := t
          failure_count := cb.failure_count + 1 } := by
  simp [record_failure, hst, hth]

theorem failN_preserves_open (ts : List Int) :
    ∀ cb : CircuitBreaker, cb.state = .circOpen →
      (failN cb ts).state = .circOpen := by
  induction ts with
  | nil => intro cb h; exact h
  | cons t ts ih =>
    intro cb h
    exact ih _ (record_failure_preserves_open cb t h)

theorem failN_opens (ts : List Int) :
    ∀ cb : CircuitBreaker, cb.state = .closed → 1 ≤ ts.length →
      cb.failure_threshold ≤ cb.failure_count + ts.length →
      (failN cb ts).state = .circOpen := by
  induction ts with
  | nil => intro cb _ h _; simp at h
  | cons t ts ih =>
    intro cb hst _ hle
    show (failN (record_failure cb t) ts).state = _
    by_cases hth : cb.failure_threshold ≤ cb.failure_count + 1
    · have hopen : (record_failure cb t).state = .circOpen := by
        rw [record_failure_closed_reach cb t hst hth]
      exact failN_preserves_open ts _ hopen
    · rw [record_failure_closed_below cb t hst hth]
      cases ts with
      | nil =>
        simp only [List.length_cons, List.length_nil] at hle
        omega
      | cons t2 ts2 =>
        refine ih _ hst (by simp) ?_
        show cb.failure_threshold ≤ cb.failure_count + 1 + (t2 :: ts2).length
        simp only [List.length_cons] at hle ⊢
        omega

/-- C5 amended: after `failureThreshold` consecutive failures a CLOSED
breaker is OPEN and rejects every call (wrapped function not invoked)
until `recoveryTimeout` has elapsed since the last failure, then moves
to HALF_OPEN where calls are allowed — but not limited to one probe: a
single successful probe leaves the circuit HALF_OPEN, two successes in
HALF_OPEN close it, and a failed probe re-opens it. -/
theorem C5_breaker_amended :
    (∀ (cb : CircuitBreaker) (ts : List Int), cb.state = .closed →
      1 ≤ ts.length → cb.failure_threshold ≤ cb.failure_count + ts.length →
      (failN cb ts).state = .circOpen) ∧
    (∀ (cb : CircuitBreaker) (now : Int) (s : Bool), cb.state = .circOpen →
      now - cb.last_failure_time < cb.recovery_timeout →
      callThrough cb now s = (.rejected, cb)) ∧
    (∀ (cb : CircuitBreaker) (now : Int), cb.state = .circOpen →
      cb.recovery_timeout ≤ now - cb.last_failure_time →
      can_execute cb now = (true, { cb with state := .halfOpen })) ∧
    (∀ (cb : CircuitBreaker) (now : Int), cb.state = .halfOpen →
      cb.success_count = 0 →
      (callThrough cb now true).1 = .ok ∧
      (callThrough cb now true).2.state = .halfOpen) ∧
    (∀ (cb : CircuitBreaker) (now : Int), cb.state = .halfOpen →
      1 ≤ cb.success_count → (callThrough cb now true).2.state = .closed) ∧
    (∀ (cb : CircuitBreaker) (now : Int), cb.state = .halfOpen →
      (callThrough cb now false).2.state = .circOpen) := by
  refine ⟨fun cb ts h1 h2 h3 => failN_opens ts cb h1 h2 h3, ?_, ?_, ?_, ?_, ?_⟩
  · intro cb now s hst htime
    have hce : can_execute cb now = (false, cb) := by
      simp only [can_execute, hst]
      rw [if_neg (by omega)]
    simp [callThrough, hce]
  · intro cb now hst htime
    simp only [can_execute, hst]
    rw [if_pos htime]
  · intro cb now hst hsc
    have hce : can_execute cb now = (true, cb) := by
      simp [can_execute, hst]
    have hrs : record_success cb =
        { cb with success_count := cb.success_count + 1 } := by
      simp only [record_success, hst]
      rw [if_neg (by omega)]
    constructor
    · simp [callThrough, hce]
    · simp [callThrough, hce, hrs, hst]
  · intro cb now hst hsc
    have hce : can_execute cb now = (true, cb) := by
      simp [can_execute, hst]
    have hrs : record_success cb =
        { cb with state := .closed, failure_count := 0, success_count := 0 } := by
      simp only [record_success, hst]
      rw [if_pos (by omega)]
    simp [callThrough, hce, hrs]
  · intro cb now hst
    have hce : can_execute cb now = (true, cb) := by
      simp [can_execute, hst]
    have hrf : record_failure cb now =
        { cb with
            last_failure_time := now
            state := .circOpen
            success_count := 0 } := by
      simp [record_failure, hst]
    simp [callThrough, hce, hrf]

/-- Breaker with threshold 3, recovery 30, after three failed calls at
time 0: state OPEN. -/
def cbOpen3 : CircuitBreaker :=
  (callThrough
    ((callThrough
      ((callThrough (CircuitBreaker.init 3 30) 0 false).2) 0 false).2)
    0 false).2

/-- C5 counterexample: with threshold 3 and recovery 30, three failures
open the circuit; a call before the timeout is rejected; at the timeout
a successful probe is allowed, yet the circuit is still HALF_OPEN (not
closed as claimed) and a second probe is immediately allowed (not
"exactly one"). -/
theorem C5_probe_counterexample :
    cbOpen3.state = .circOpen ∧
    (callThrough cbOpen3 10 true).1 = .rejected ∧
    (callThrough cbOpen3 30 true).1 = .ok ∧
    (callThrough cbOpen3 30 true).2.state = .halfOpen ∧
    (can_execute (callThrough cbOpen3 30 true).2 30).1 = true := by
  decide

def cbOpenW : CircuitBreaker :=
  { CircuitBreaker.init 2 30 with state := .circOpen, failure_count := 2 }

def cbHalfW : CircuitBreaker :=
  { CircuitBreaker.init 2 30 with state := .halfOpen }

def cbHalfW1 : CircuitBreaker :=
  { CircuitBreaker.init 2 30 with state := .halfOpen, success_count := 1 }

theorem C5_breaker_amended_witness :
    (failN (CircuitBreaker.init 2 30) [0, 0]).state = .circOpen ∧
    callThrough cbOpenW 10 true = (.rejected, cbOpenW) ∧
    can_execute cbOpenW 30 = (true, { cbOpenW with state := .halfOpen }) ∧
    ((callThrough cbHalfW 30 true).1 = .ok ∧
      (callThrough cbHalfW 30 true).2.state = .halfOpen) ∧
    (callThrough cbHalfW1 30 true).2.state = .closed ∧
    (callThrough cbHalfW 30 false).2.state = .circOpen := by
  obtain ⟨p1, p2, p3, p4, p5, p6⟩ := C5_breaker_amended
  exact ⟨p1 _ [0, 0] rfl (by decide) (by decide),
    p2 cbOpenW 10 true rfl (by decide),
    p3 cbOpenW 30 rfl (by decide),
    p4 cbHalfW 30 rfl rfl,
    p5 cbHalfW1 30 rfl (by decide),
    p6 cbHalfW 30 rfl⟩

end CDC

namespace CDC

/-- A Python dict key as JSON serialisation sees it: integer partition
numbers or strings. `json.dumps` coerces non-string keys to strings and
`json.loads` yields string keys. -/
inductive PyKey where
  | intK (n : Int)
  | strK (s : String)
  deriving Repr, DecidableEq

/-- The `{topic: {partition: offset}}` mapping of
`OffsetStore.save_offsets` / `get_offsets` (src/app/cdc/offset_store.py). -/
abbrev OffsetsMap := List (String × List (PyKey × Int))

abbrev RedisStore := List (String × OffsetsMap)

/-- Key coercion performed by `json.dumps` on dict keys. -/
def jsonKeyStr : PyKey → PyKey
  | .intK n => .strK (toString n)
  | .strK s => .strK s

/-- `json.loads(json.dumps(offsets))`: topic keys are already strings;
partition keys get stringified, offsets survive unchanged. -/
def jsonRoundTrip (offsets : OffsetsMap) : OffsetsMap :=
  offsets.map fun tp => (tp.1, tp.2.map fun po => (jsonKeyStr po.1, po.2))

/-- `OffsetStore.save_offsets` (offset_store.py lines 17-26): stores
`json.dumps(offsets)` under `"kafka_offsets:" + consumer_group` — the
Redis SET is modelled as prepending the decoded value. -/
def save_offsets (store : RedisStore) (consumerGroup : String)
    (offsets : OffsetsMap) : RedisStore :=
  ("kafka_offsets:" ++ consumerGroup, jsonRoundTrip offsets) :: store

/-- `OffsetStore.get_offsets` (offset_store.py lines 28-40):
`json.loads` of the stored value, `{}` when the key is absent. -/
def get_offsets (store : RedisStore) (consumerGroup : String) : OffsetsMap :=
  match (store.find? (fun p => p.1 = "kafka_offsets:" ++ consumerGroup)).map
      (fun p => p.2) with
  | none => []
  | some v => v

/-- C8 amended: `save_offsets` stores the mapping under the key
`"kafka_offsets:{g}"`, and a subsequent `get_offsets` returns the
mapping with every integer partition key converted to its decimal
string (values intact) — the JSON round-trip is value-preserving but
not key-type-preserving. -/
theorem C8_offsets_roundtrip_amended (store : RedisStore) (g : String) (o : OffsetsMap) :
    save_offsets store g o = ("kafka_offsets:" ++ g, jsonRoundTrip o) :: store ∧
    get_offsets (save_offsets store g o) g = jsonRoundTrip o := by
  refine ⟨rfl, ?_⟩
  simp [get_offsets, save_offsets, List.find?]

/-- C8 counterexample: saving `{"t": {0: 5}}` and reading it back
yields `{"t": {"0": 5}}`, not the original mapping — the round-trip is
not lossless on key types (the consumer compensates with
`int(partition)` at restore, consumer.py line 180). -/
theorem C8_partition_keys_stringified :
    get_offsets (save_offsets [] "g" [("t", [(.intK 0, 5)])]) "g" =
      [("t", [(.strK "0", 5)])] ∧
    get_offsets (save_offsets [] "g" [("t", [(.intK 0, 5)])]) "g" ≠
      [("t", [(.intK 0, 5)])] := by
  decide

/-- Transport metadata of one consumed Kafka message in
`CDCConsumer._consume_loop` (src/app/cdc/consumer.py). -/
structure KafkaMsg where
  topic : String
  partition : Nat
  offset : Int
  deriving Repr, DecidableEq

/-- Observable actions of one `_consume_loop` iteration: `stage`
appends the decoded event to the in-memory `batch_messages` map
(line 273), `commit` is `self.consumer.commit(msg)` (lines 276/284),
`bufferAdd` is a `CircularBuffer.add` performed by
`_process_message_batch` (line 381). -/
inductive ConsumerAction where
  | stage (m : KafkaMsg)
  | commit (m : KafkaMsg)
  | bufferAdd (m : KafkaMsg)
  deriving Repr, DecidableEq

/-- One `_consume_loop` iteration handling one polled message, as the
ordered list of emitted actions plus the staging map afterwards.
`decodeOk` abstracts whether `json.loads` succeeded (on failure the
offset is still committed, line 284); `flushDue` abstracts the size and
time thresholds of lines 287-289. Routing and merging inside
`_process_message_batch` are abstracted as adding every staged event:
merge-dropping an event only removes `bufferAdd` actions, which cannot
restore the claimed ordering. The commit (line 276) always precedes the
flush (line 291). -/
def consumeIteration (staged : List KafkaMsg) (msg : KafkaMsg)
    (decodeOk flushDue : Bool) : List ConsumerAction × List KafkaMsg :=
  let handleActions : List ConsumerAction :=
    if decodeOk then [.stage msg, .commit msg] else [.commit msg]
  let staged1 := if decodeOk then staged ++ [msg] else staged
  if flushDue then
    (handleActions ++ staged1.map .bufferAdd, [])
  else
    (handleActions, staged1)

/-- The C1 claim as a trace property: every commit is preceded by the
buffer placement of the same message. -/
def committedOnlyAfterBuffered (tr : List ConsumerAction) : Prop :=
  ∀ pre a post, tr = pre ++ a :: post →
    ∀ m, a = .commit m → .bufferAdd m ∈ pre

/-- A concrete decodable message. -/
def msgW : KafkaMsg := { topic := "src.public.teams", partition := 0, offset := 42 }

/-- C1 counterexample: a single decoded message is staged and its
offset committed while no flush threshold is met — the trace
`[stage, commit, bufferAdd]` has the commit strictly before the buffer
placement, refuting "commits only after the event has been placed into
its category buffer". -/
theorem C1_commit_without_buffer :
    (consumeIteration [] msgW true true).1 =
      [.stage msgW, .commit msgW, .bufferAdd msgW] ∧
    ¬ committedOnlyAfterBuffered (consumeIteration [] msgW true true).1 := by
  refine ⟨rfl, ?_⟩
  intro h
  have := h [.stage msgW] (.commit msgW) [.bufferAdd msgW] rfl msgW rfl
  simp at this

/-- C1 amended: in every iteration the trace splits into a prefix that
contains the commit and no buffer placement, followed only by buffer
placements — offsets are committed immediately after staging into
memory, before (or without) the event ever reaching a CircularBuffer. -/
theorem C1_commit_before_buffer_amended (staged : List KafkaMsg) (msg : KafkaMsg)
    (decodeOk flushDue : Bool) :
    ∃ pre adds, (consumeIteration staged msg decodeOk flushDue).1 = pre ++ adds ∧
      ConsumerAction.commit msg ∈ pre ∧
      (∀ a ∈ pre, ∀ m, a ≠ .bufferAdd m) ∧
      (∀ a ∈ adds, ∃ m, a = .bufferAdd m) := by
  cases decodeOk with
  | true =>
    cases flushDue with
    | true =>
      refine ⟨[.stage msg, .commit msg],
        ((staged ++ [msg]).map .bufferAdd), rfl, by simp, ?_, ?_⟩
      · intro a ha m
        rcases List.mem_cons.mp ha with rfl | ha2
        · simp
        · rcases List.mem_cons.mp ha2 with rfl | ha3
          · simp
          · exact absurd ha3 (List.not_mem_nil a)
      · intro a ha
        obtain ⟨x, _, rfl⟩ := List.mem_map.mp ha
        exact ⟨x, rfl⟩
    | false =>
      refine ⟨[.stage msg, .commit msg], [], by simp [consumeIteration], by simp, ?_, by simp⟩
      intro a ha m
      rcases List.mem_cons.mp ha with rfl | ha2
      · simp
      · rcases List.mem_cons.mp ha2 with rfl | ha3
        · simp
        · exact absurd ha3 (List.not_mem_nil a)
  | false =>
    cases flushDue with
    | true =>
      refine ⟨[.commit msg], (staged.map .bufferAdd), rfl, by simp, ?_, ?_⟩
      · intro a ha m
        rcases List.mem_cons.mp ha with rfl | ha2
        · simp
        · exact absurd ha2 (List.not_mem_nil a)
      · intro a ha
        obtain ⟨x, _, rfl⟩ := List.mem_map.mp ha
        exact ⟨x, rfl⟩
    | false =>
      refine ⟨[.commit msg], [], by simp [consumeIteration], by simp, ?_, by simp⟩
      intro a ha m
      rcases List.mem_cons.mp ha with rfl | ha2
      · simp
      · exact absurd ha2 (List.not_mem_nil a)

end CDC

namespace CDC

/-- One `error_log` entry of `CDCProcessor` (src/app/cdc/processor.py):
the dict stored under key `f"{model}:{entity.id}"`. `model`/`category`
are `Option` because `error_info.get(...)` may miss. -/
structure ErrorInfo where
  id : Int
  model : Option String
  category : Option String
  operation : String
  retry_count : Nat
  deriving Repr, DecidableEq

/-- Python truthiness for `if not model or not category: continue` —
a missing or empty string is falsy. -/
def truthyStr : Option String → Option String
  | none => none
  | some s => if s = "" then none else some s

/-- A retry group key `f"{model}:{category}:{operation}"`, kept
structural (the code splits it back with `group_key.split(":")`, which
assumes colon-free components). -/
abbrev GroupKey := String × String × String

/-- Appending an entry to `retry_groups[group_key]` with CPython dict
insertion-order semantics. -/
def groupInsert (gs : List (GroupKey × List ErrorInfo)) (k : GroupKey)
    (info : ErrorInfo) : List (GroupKey × List ErrorInfo) :=
  if gs.any (fun g => g.1 = k) then
    gs.map (fun g => if g.1 = k then (g.1, g.2 ++ [info]) else g)
  else gs ++ [(k, [info])]

/-- One iteration of the grouping loop in
`CDCProcessor.process_error_retries` (processor.py lines 699-720): skip
entries with falsy model/category, skip entries at
`retry_count >= CDC_MAX_RETRY_COUNT`, group the rest. -/
def groupStep (maxRetry : Nat) (gs : List (GroupKey × List ErrorInfo))
    (p : String × ErrorInfo) : List (GroupKey × List ErrorInfo) :=
  match truthyStr p.2.model, truthyStr p.2.category with
  | some m, some c =>
    if maxRetry ≤ p.2.retry_count then gs
    else groupInsert gs (m, c, p.2.operation) p.2
  | _, _ => gs

/-- The retry groups built from a snapshot of the error log. -/
def buildGroups (log : List (String × ErrorInfo)) (maxRetry : Nat) :
    List (GroupKey × List ErrorInfo) :=
  log.foldl (groupStep maxRetry) []

/-- `f"{model}:{id}"`, the error-log key. -/
def mkErrorKey (m : String) (i : Int) : String := m ++ ":" ++ toString i

/-- The error-log keys of all members of the given groups. -/
def groupIds (gs : List (GroupKey × List ErrorInfo)) : List String :=
  gs.flatMap fun g => g.2.map fun inf => mkErrorKey g.1.1 inf.id

/-- The keys the sweep re-attempts: exactly the grouped entries. -/
def attemptedIds (log : List (String × ErrorInfo)) (maxRetry : Nat) :
    List String :=
  groupIds (buildGroups log maxRetry)

/-- The keys the sweep deletes from the error log. The external
delete/upsert outcomes (processor.py lines 725-810) are abstracted by
`oracle`: a group whose oracle answer is true has its members removed
(retry succeeded, or the entities no longer exist in the database);
every `del self.error_log[error_id]` the code performs targets a key of
the form `f"{model}:{info[id]}"` for a member of the processed group. -/
def removedIds (log : List (String × ErrorInfo)) (maxRetry : Nat)
    (oracle : GroupKey → Bool) : List String :=
  groupIds ((buildGroups log maxRetry).filter (fun g => oracle g.1))

/-- `CDCProcessor.process_error_retries` as its effect on the error
log: the log after the sweep, paired with the keys that were
re-attempted. -/
def process_error_retries (log : List (String × ErrorInfo)) (maxRetry : Nat)
    (oracle : GroupKey → Bool) :
    List (String × ErrorInfo) × List String :=
  (log.filter (fun p => decide (p.1 ∉ removedIds log maxRetry oracle)),
    attemptedIds log maxRetry)

/-- An error-log entry whose retry count has reached the budget of 5. -/
def maxedEntry : String × ErrorInfo :=
  ("m:1", { id := 1, model := some "m", category := some "c",
            operation := "update", retry_count := 5 })

/-- C3 counterexample: with `maxRetryCount = 5`, an entry at
`retry_count = 5` is skipped by the sweep (not re-attempted) but is NOT
removed from the error log — it is still present afterwards, whatever
the retry outcomes, refuting "removes it from the error log". -/
theorem C3_maxed_entry_not_removed :
    (process_error_retries [maxedEntry] 5 (fun _ => true)).1 = [maxedEntry] ∧
    (process_error_retries [maxedEntry] 5 (fun _ => true)).2 = [] := by
  decide

theorem mem_groupInsert (gs : List (GroupKey × List ErrorInfo)) (k : GroupKey)
    (info : ErrorInfo) (g : GroupKey × List ErrorInfo)
    (hg : g ∈ groupInsert gs k info) :
    (∃ g0 ∈ gs, g.1 = g0.1 ∧ ∀ inf ∈ g.2, inf ∈ g0.2 ∨ (inf = info ∧ g.1 = k)) ∨
      (g = (k, [info])) := by
  simp only [groupInsert] at hg
  split_ifs at hg with hk
  · obtain ⟨g0, hg0, hge⟩ := List.mem_map.mp hg
    split_ifs at hge with hkey
    · left
      refine ⟨g0, hg0, by rw [← hge], ?_⟩
      intro inf hinf
      rw [← hge] at hinf
      simp only at hinf
      rcases List.mem_append.mp hinf with h | h
      · exact Or.inl h
      · right
        exact ⟨by simpa using h, by rw [← hge]; exact hkey⟩
    · left
      refine ⟨g0, hg0, by rw [← hge], ?_⟩
      intro inf hinf
      rw [← hge] at hinf
      exact Or.inl hinf
  · rcases List.mem_append.mp hg with h | h
    · left
      exact ⟨g, h, rfl, fun inf hinf => Or.inl hinf⟩
    · right
      simpa using h

/-- Invariant carried through `buildGroups`: every group member comes
from a log entry, has retry count below the budget, and the group key's
model component is the member's model string. -/
def groupsInv (log : List (String × ErrorInfo)) (maxRetry : Nat)
    (gs : List (GroupKey × List ErrorInfo)) : Prop :=
  ∀ g ∈ gs, ∀ inf ∈ g.2,
    (∃ k', (k', inf) ∈ log) ∧ inf.retry_count < maxRetry ∧
      g.1.1 = inf.model.getD ""

theorem groupStep_inv (log : List (String × ErrorInfo)) (maxRetry : Nat)
    (gs : List (GroupKey × List ErrorInfo)) (p : String × ErrorInfo)
    (hp : p ∈ log) (hinv : groupsInv log maxRetry gs) :
    groupsInv log maxRetry (groupStep maxRetry gs p) := by
  intro g hg inf hinf
  simp only [groupStep] at hg
  cases hm : truthyStr p.2.model with
  | none =>
    rw [hm] at hg
    exact hinv g hg inf hinf
  | some m =>
    rw [hm] at hg
    cases hc : truthyStr p.2.category with
    | none =>
      rw [hc] at hg
      exact hinv g hg inf hinf
    | some c =>
      rw [hc] at hg
      split_ifs at hg with hret
      · exact hinv g hg inf hinf
      · have hmodel : p.2.model.getD "" = m := by
          cases hmo : p.2.model with
          | none => simp [truthyStr, hmo] at hm
          | some s =>
            simp only [truthyStr, hmo] at hm
            by_cases hs : s = ""
            · rw [if_pos hs] at hm
              exact absurd hm (by simp)
            · rw [if_neg hs] at hm
              simpa using Option.some_inj.mp hm
        rcases mem_groupInsert gs (m, c, p.2.operation) p.2 g hg with
          ⟨g0, hg0, hkey, hmem⟩ | heq
        · rcases hmem inf hinf with h1 | ⟨rfl, hk1⟩
          · obtain ⟨h2, h3, h4⟩ := hinv g0 hg0 inf h1
            exact ⟨h2, h3, by rw [hkey]; exact h4⟩
          · exact ⟨⟨p.1, by simpa using hp⟩, by omega, by rw [hk1, hmodel]⟩
        · rw [heq] at hinf ⊢
          simp only [List.mem_singleton] at hinf
          subst hinf
          exact ⟨⟨p.1, by simpa using hp⟩, by omega, by simp [hmodel]⟩

theorem buildGroups_inv (log : List (String × ErrorInfo)) (maxRetry : Nat) :
    groupsInv log maxRetry (buildGroups log maxRetry) := by
  have main : ∀ (rest pre : List (String × ErrorInfo)) gs,
      (∀ p ∈ rest, p ∈ log) → groupsInv log maxRetry gs →
      groupsInv log maxRetry (rest.foldl (groupStep maxRetry) gs) := by
    intro rest
    induction rest with
    | nil => intro pre gs _ hinv; exact hinv
    | cons p rest ih =>
      intro pre gs hsub hinv
      exact ih pre _ (fun q hq => hsub q (by simp [hq]))
        (groupStep_inv log maxRetry gs p (hsub p (by simp)) hinv)
  exact main log [] [] (fun p hp => hp) (fun g hg => absurd hg (List.not_mem_nil g))

theorem nodup_keys_eq {α β : Type} [DecidableEq α] (l : List (α × β))
    (hnd : (l.map Prod.fst).Nodup) {k : α} {a b : β}
    (ha : (k, a) ∈ l) (hb : (k, b) ∈ l) : a = b := by
  induction l with
  | nil => exact absurd ha (List.not_mem_nil _)
  | cons p l ih =>
    rw [List.map_cons, List.nodup_cons] at hnd
    rcases List.mem_cons.mp ha with ha1 | ha2
    · rcases List.mem_cons.mp hb with hb1 | hb2
      · rw [← ha1] at hb1
        exact (Prod.mk.injEq _ _ _ _ ▸ hb1.symm).2
      · exfalso
        apply hnd.1
        rw [← ha1]
        exact List.mem_map.mpr ⟨(k, b), hb2, rfl⟩
    · rcases List.mem_cons.mp hb with hb1 | hb2
      · exfalso
        apply hnd.1
        rw [← hb1]
        exact List.mem_map.mpr ⟨(k, a), ha2, rfl⟩
      · exact ih hnd.2 ha2 hb2

theorem removedIds_subset (log : List (String × ErrorInfo)) (maxRetry : Nat)
    (oracle : GroupKey → Bool) :
    ∀ x ∈ removedIds log maxRetry oracle, x ∈ attemptedIds log maxRetry := by
  intro x hx
  obtain ⟨g, hg, hx2⟩ := List.mem_flatMap.mp hx
  exact List.mem_flatMap.mpr ⟨g, (List.mem_filter.mp hg).1, hx2⟩

/-- C3 amended: an entry whose retry count has reached
`maxRetryCount` is never placed in a retry group (not re-attempted) and
survives the sweep unchanged in the error log — it is never retried
again automatically, but it is never abandoned/removed either
(well-formed log: keys follow `f"{model}:{id}"` and are unique). -/
theorem C3_retry_budget_amended (log : List (String × ErrorInfo)) (maxRetry : Nat)
    (oracle : GroupKey → Bool) (key : String) (info : ErrorInfo)
    (hmem : (key, info) ∈ log)
    (hmax : maxRetry ≤ info.retry_count)
    (hwf : ∀ p ∈ log, p.1 = mkErrorKey (p.2.model.getD "") p.2.id)
    (hnd : (log.map Prod.fst).Nodup) :
    key ∉ (process_error_retries log maxRetry oracle).2 ∧
      (key, info) ∈ (process_error_retries log maxRetry oracle).1 := by
  have hgroups := buildGroups_inv log maxRetry
  have hnotin : key ∉ attemptedIds log maxRetry := by
    intro hkey
    obtain ⟨g, hg, hkey2⟩ := List.mem_flatMap.mp hkey
    obtain ⟨inf, hinf, hkey3⟩ := List.mem_map.mp hkey2
    obtain ⟨⟨k1, hk1⟩, hret, hmodel⟩ := hgroups g hg inf hinf
    have hk1eq : k1 = key := by
      have hwf1 := hwf (k1, inf) hk1
      simp only at hwf1
      rw [hwf1, ← hmodel, hkey3]
    rw [hk1eq] at hk1
    obtain rfl := nodup_keys_eq log hnd hk1 hmem
    omega
  refine ⟨hnotin, ?_⟩
  show (key, info) ∈ log.filter _
  apply List.mem_filter.mpr
  refine ⟨hmem, ?_⟩
  rw [decide_eq_true_eq]
  intro hc
  exact hnotin (removedIds_subset log maxRetry oracle key hc)

theorem C3_retry_budget_amended_witness :
    "m:1" ∉ (process_error_retries [maxedEntry] 5 (fun _ => true)).2 ∧
      ("m:1", maxedEntry.2) ∈
        (process_error_retries [maxedEntry] 5 (fun _ => true)).1 :=
  C3_retry_budget_amended [maxedEntry] 5 (fun _ => true) "m:1" maxedEntry.2
    (by decide) (by decide) (by decide) (by decide)

end CDC
